import Mathlib

/-!
# Verification of `BlockchainAccountIndexing.cpp`

A shallow embedding of the core of the repository
`skhan75/Blockchain-Account-Indexing` (single translation unit
`src/BlockchainAccountIndexing.cpp`), together with theorems settling the
spec claims about it.

Modelling conventions:

* `std::string` is `String`, C++ `int` is `Int`,
  `chrono::system_clock::time_point` is `Int` (an absolute time value;
  only ordering and arithmetic on it matter).
* `std::unordered_map` is an association list with the usual
  insert-or-overwrite / erase / lookup operations.  Iteration order of an
  `unordered_map` is unspecified in C++; no claim below depends on it.
* `std::priority_queue<Account, vector<Account>, AccountTokenComparator>`
  (comparator `a1.tokens > a2.tokens`, so `top()`/`pop()` yield an account
  of *minimum* `tokens`) is observed by the program only through
  `top`, `pop`, `push`, `size` and whole-queue drains, i.e. as a sequence
  of accounts in ascending `tokens` order.  It is modelled as a list kept
  sorted by ascending `tokens` (ties keep insertion order); `top` is the
  head and `pop` is the tail.
* The callback heap (`vector<pair<time_point, Account>>` manipulated with
  `std::push_heap` / `std::pop_heap`) is modelled *exactly*, as a list
  indexed like the underlying vector, with the libstdc++ algorithms
  `__push_heap` / `__adjust_heap` / `__pop_heap` transcribed verbatim,
  because the program calls them outside their preconditions and the
  resulting array states matter.
* Wall-clock reads and the random jitter of
  `AccountManager::ingestAccountUpdate` are not modellable; the computed
  fire time `now() + callbackTimeMs + jitter` is passed in as an explicit
  `fireTime` parameter, and the driver's `chrono::system_clock::now()`
  argument of `fireCallbacks` as an explicit `now` parameter.
-/

/-- `struct Account` of the source: identifier, account type (category),
opaque data mapping, token count (ranking metric), version, callback
delay in milliseconds. -/
structure Account where
  id : String
  accountType : String
  data : List (String × Int)
  tokens : Int
  version : Int
  callbackTimeMs : Int
deriving DecidableEq, Repr, Inhabited

/-- `struct AccountKey` of the source: the ledger key, an
(identifier, version) pair. -/
structure AccountKey where
  id : String
  version : Int
deriving DecidableEq, Repr, Inhabited

/-- `AccountTokenComparator` of the source: `a1.tokens > a2.tokens`.
Used as the strict-weak-order argument of the ranking priority queue. -/
def AccountTokenComparator (a1 a2 : Account) : Bool :=
  a1.tokens > a2.tokens

/-- `AccountTimeComparator` of the source: `a.first > b.first` on
(time, account) pairs, so the heap keeps the minimum time at the root. -/
def AccountTimeComparator (a b : Int × Account) : Bool :=
  a.1 > b.1

/-- `Account::operator<` of the source: comparison by `tokens`. -/
def accountLt (a b : Account) : Bool :=
  a.tokens < b.tokens

/-- The default `std::less` on `pair<time_point, Account>`: lexicographic,
first by time, then by `Account::operator<` (tokens).  This is the
comparator `std::pop_heap` uses at line 146 of the source, where the
comparator argument was omitted. -/
def pairLess (a b : Int × Account) : Bool :=
  if a.1 < b.1 then true
  else if b.1 < a.1 then false
  else accountLt a.2 b.2

/-! ## Association-list model of `std::unordered_map` -/

/-- Lookup in an association list (`unordered_map::find`). -/
def mapLookup {β : Type} (m : List (String × β)) (k : String) : Option β :=
  match m with
  | [] => none
  | (k', v) :: rest => if k' = k then some v else mapLookup rest k

/-- Insert-or-overwrite (`unordered_map::operator[] =`). -/
def mapInsert {β : Type} (m : List (String × β)) (k : String) (v : β) :
    List (String × β) :=
  match m with
  | [] => [(k, v)]
  | (k', v') :: rest =>
    if k' = k then (k, v) :: rest else (k', v') :: mapInsert rest k v

/-- Erase-by-key (`unordered_map::erase`). -/
def mapErase {β : Type} (m : List (String × β)) (k : String) :
    List (String × β) :=
  match m with
  | [] => []
  | (k', v') :: rest =>
    if k' = k then rest else (k', v') :: mapErase rest k

/-! ## The ranking priority queue

`priority_queue<Account, vector<Account>, AccountTokenComparator>` as a
list sorted by ascending `tokens` (head = `top()` = minimum tokens). -/

/-- `priority_queue::push`: ordered insertion keeping ascending `tokens`;
an element with the same token count as an existing one goes after it,
matching a fresh element sifting no further than necessary. -/
def pqPush (pq : List Account) (a : Account) : List Account :=
  match pq with
  | [] => [a]
  | b :: bs => if a.tokens < b.tokens then a :: b :: bs else b :: pqPush bs a

/-- `AccountManager::insertAccountIntoPriorityQueue`: the source drains
`pq` around the new account and rebuilds it; the resulting queue holds
exactly the old elements plus `account`, i.e. it is a push. -/
def insertAccountIntoPriorityQueue (pq : List Account) (account : Account) :
    List Account :=
  pqPush pq account

/-- The scan of `ingestAccountUpdate` lines 296-305: pop a copy of the
queue until the front has the wanted id; returns that entry if found.
Popping visits elements in ascending-token order, i.e. list order. -/
def pqFindById (pq : List Account) (id : String) : Option Account :=
  match pq with
  | [] => none
  | b :: bs => if b.id = id then some b else pqFindById bs id

/-- `AccountManager::removeAccountFromPriorityQueue`: pops until the front
matches `account.id`, drops that element, keeps everything else. -/
def removeAccountFromPriorityQueue (pq : List Account) (account : Account) :
    List Account :=
  match pq with
  | [] => []
  | b :: bs =>
    if b.id = account.id then bs
    else b :: removeAccountFromPriorityQueue bs account

/-- The element ordering the queue model keeps: ascending token counts. -/
def tokensLE (x y : Account) : Prop := x.tokens ≤ y.tokens

instance : DecidableRel tokensLE :=
  fun x y => inferInstanceAs (Decidable (x.tokens ≤ y.tokens))

/-! ## Ledger (`AccountIndexer::indexedAccounts`) -/

/-- `indexedAccounts[{id, version}] = account`: overwrite if the key is
present, otherwise append. -/
def ledgerPut (l : List (AccountKey × Account)) (k : AccountKey)
    (a : Account) : List (AccountKey × Account) :=
  match l with
  | [] => [(k, a)]
  | (k', a') :: rest =>
    if k' = k then (k, a) :: rest else (k', a') :: ledgerPut rest k a

/-- `indexedAccounts.erase({id, version})`. -/
def ledgerErase (l : List (AccountKey × Account)) (k : AccountKey) :
    List (AccountKey × Account) :=
  match l with
  | [] => []
  | (k', a') :: rest =>
    if k' = k then rest else (k', a') :: ledgerErase rest k

/-- Number of ledger entries whose key carries the given identifier. -/
def countById (l : List (AccountKey × Account)) (id : String) : Nat :=
  (l.filter (fun p => p.1.id = id)).length

/-! ## The callback heap

`CallbackManager` stores `vector<pair<time_point, Account>>` and drives it
with `std::push_heap` / `std::pop_heap`.  Because `removeAtIndex` calls
`pop_heap` on a range that is not a heap, and `fireCallbacks` calls
`pop_heap` with the wrong comparator, the exact array manipulation of the
library algorithms is what determines program behaviour, so the libstdc++
implementations are transcribed element for element.  Vector cells are
read with a default for out-of-range indices; all indices arising in the
runs below are in range. -/

/-- Read a vector cell (`first[i]`). -/
def listGet {α : Type} [Inhabited α] (l : List α) (i : Nat) : α :=
  l.getD i default

/-- Write a vector cell (`first[i] = v`). -/
def listSet {α : Type} (l : List α) (i : Nat) (v : α) : List α :=
  l.set i v

/-- `std::swap(l[i], l[j])`. -/
def listSwap {α : Type} [Inhabited α] (l : List α) (i j : Nat) : List α :=
  listSet (listSet l i (listGet l j)) j (listGet l i)

/-- libstdc++ `std::__push_heap(first, holeIndex, topIndex, value, comp)`:
walk the hole up past parents that compare below `value`, then place
`value`.  The hole index strictly decreases, so `holeIndex + 1` steps of
fuel always suffice, and on exhausted fuel the exit action (placing the
value) coincides with the loop exit. -/
def pushHeapLoop {α : Type} [Inhabited α] (comp : α → α → Bool)
    (fuel : Nat) (arr : List α) (holeIndex topIndex : Nat) (value : α) :
    List α :=
  match fuel with
  | 0 => listSet arr holeIndex value
  | fuel + 1 =>
    if topIndex < holeIndex then
      let parent := (holeIndex - 1) / 2
      if comp (listGet arr parent) value then
        pushHeapLoop comp fuel (listSet arr holeIndex (listGet arr parent))
          parent topIndex value
      else
        listSet arr holeIndex value
    else
      listSet arr holeIndex value

/-- `std::push_heap(first, last, comp)`: sift the last element up. -/
def pushHeap {α : Type} [Inhabited α] (comp : α → α → Bool)
    (arr : List α) : List α :=
  if arr.isEmpty then arr
  else
    pushHeapLoop comp arr.length arr (arr.length - 1) 0
      (listGet arr (arr.length - 1))

/-- The descend loop of libstdc++ `std::__adjust_heap`: push the hole down
to the larger child while a second child exists.  Returns the array, the
hole index and the final `secondChild` value.  The loop runs at most
`len` times, used as fuel. -/
def adjustHeapLoop {α : Type} [Inhabited α] (comp : α → α → Bool)
    (fuel : Nat) (arr : List α) (holeIndex secondChild len : Nat) :
    List α × Nat × Nat :=
  match fuel with
  | 0 => (arr, holeIndex, secondChild)
  | fuel + 1 =>
    if secondChild < (len - 1) / 2 then
      let sc0 := 2 * (secondChild + 1)
      let sc := if comp (listGet arr sc0) (listGet arr (sc0 - 1)) then
        sc0 - 1 else sc0
      adjustHeapLoop comp fuel (listSet arr holeIndex (listGet arr sc))
        sc sc len
    else
      (arr, holeIndex, secondChild)

/-- libstdc++ `std::__adjust_heap(first, holeIndex, len, value, comp)`. -/
def adjustHeap {α : Type} [Inhabited α] (comp : α → α → Bool)
    (arr : List α) (holeIndex len : Nat) (value : α) : List α :=
  let topIndex := holeIndex
  let (arr1, hole1, sc1) := adjustHeapLoop comp len arr holeIndex holeIndex len
  let (arr2, hole2) :=
    if len % 2 == 0 && sc1 == (len - 2) / 2 then
      let sc2 := 2 * (sc1 + 1)
      (listSet arr1 hole1 (listGet arr1 (sc2 - 1)), sc2 - 1)
    else
      (arr1, hole1)
  pushHeapLoop comp (hole2 + 1) arr2 hole2 topIndex value

/-- `std::pop_heap(first, last, comp)`: for more than one element, move
the last element out as `value`, copy the root into the last slot, and
re-insert `value` from the root by `__adjust_heap` over the first
`len - 1` cells. -/
def popHeap {α : Type} [Inhabited α] (comp : α → α → Bool)
    (arr : List α) : List α :=
  if arr.length > 1 then
    let n := arr.length
    let value := listGet arr (n - 1)
    let arr1 := listSet arr (n - 1) (listGet arr 0)
    adjustHeap comp arr1 0 (n - 1) value
  else arr

/-! ## `CallbackManager` -/

/-- `class CallbackManager`: the callback vector (maintained as a heap by
time) and the side index `indexMap` from account id to a heap position. -/
structure CallbackManager where
  callbacks : List (Int × Account)
  indexMap : List (String × Nat)
deriving DecidableEq, Repr

/-- `CallbackManager::removeAtIndex` (source lines 99-110): if the index
is not the last cell, swap it with the last cell, record the moved
element's new position in `indexMap`, then `pop_heap` (with
`AccountTimeComparator`), `pop_back`, `push_heap`; otherwise just
`pop_back`. -/
def CallbackManager.removeAtIndex (cm : CallbackManager) (index : Nat) :
    CallbackManager :=
  if index ≠ cm.callbacks.length - 1 then
    let arr1 := listSwap cm.callbacks index (cm.callbacks.length - 1)
    let im1 := mapInsert cm.indexMap (listGet arr1 index).2.id index
    let arr2 := (popHeap AccountTimeComparator arr1).dropLast
    ⟨pushHeap AccountTimeComparator arr2, im1⟩
  else
    ⟨cm.callbacks.dropLast, cm.indexMap⟩

/-- `CallbackManager::scheduleCallback` (lines 118-122): append the
(time, account) pair, record `indexMap[id] = size - 1` (before the
`push_heap` sift, so the recorded position is the pre-sift one), then
`push_heap`. -/
def CallbackManager.scheduleCallback (cm : CallbackManager)
    (account : Account) (callbackTime : Int) : CallbackManager :=
  let arr := cm.callbacks ++ [(callbackTime, account)]
  let im := mapInsert cm.indexMap account.id (arr.length - 1)
  ⟨pushHeap AccountTimeComparator arr, im⟩

/-- `CallbackManager::cancelCallback` (lines 128-136): look the id up in
`indexMap`; if absent do nothing, otherwise erase the map entry and
remove at the recorded index. -/
def CallbackManager.cancelCallback (cm : CallbackManager)
    (account : Account) : CallbackManager :=
  match mapLookup cm.indexMap account.id with
  | none => cm
  | some index =>
    CallbackManager.removeAtIndex ⟨cm.callbacks, mapErase cm.indexMap account.id⟩ index

/-- Loop body of `CallbackManager::fireCallbacks` (lines 142-150).  While
the vector front's time is at most `now`: emit (id, version) of the
front, `pop_heap` with the DEFAULT comparator (the source omits
`AccountTimeComparator` here, so `std::less` on the pair is used),
`pop_back`, then `indexMap.erase(account.id)` where `account` is a
reference bound to cell 0 before the pops — after them it denotes the new
cell 0 (for one remaining element the C++ read is of a destroyed cell;
the model reads the fired account there, matching the bytes left in
place).  Fuel is the vector length; each iteration shortens the vector by
one. -/
def fireLoop (fuel : Nat) (cm : CallbackManager) (now : Int) :
    CallbackManager × List (String × Int) :=
  match fuel with
  | 0 => (cm, [])
  | fuel + 1 =>
    match cm.callbacks with
    | [] => (cm, [])
    | (t, a) :: _ =>
      if t ≤ now then
        let arr := (popHeap pairLess cm.callbacks).dropLast
        let erasedId := if arr.isEmpty then a.id else (listGet arr 0).2.id
        let im := mapErase cm.indexMap erasedId
        let (cm2, evs) := fireLoop fuel ⟨arr, im⟩ now
        (cm2, (a.id, a.version) :: evs)
      else (cm, [])

/-- `CallbackManager::fireCallbacks`, returning the final state and the
list of fired (identifier, version) events in emission order. -/
def CallbackManager.fireCallbacks (cm : CallbackManager) (now : Int) :
    CallbackManager × List (String × Int) :=
  fireLoop cm.callbacks.length cm now

/-! ## `AccountIndexer` and `AccountManager` -/

/-- `class AccountIndexer`: the per-type ranking queues and the ledger. -/
structure AccountIndexer where
  highestTokenAccounts : List (String × List Account)
  indexedAccounts : List (AccountKey × Account)
deriving DecidableEq, Repr

/-- `AccountIndexer::indexAccount` (lines 169-172):
`indexedAccounts[{id, version}] = account`. -/
def AccountIndexer.indexAccount (ai : AccountIndexer) (account : Account) :
    AccountIndexer :=
  { ai with indexedAccounts :=
      ledgerPut ai.indexedAccounts ⟨account.id, account.version⟩ account }

/-- `AccountIndexer::removeAccount` (lines 178-180):
`indexedAccounts.erase({id, version})`. -/
def AccountIndexer.removeAccount (ai : AccountIndexer) (account : Account) :
    AccountIndexer :=
  { ai with indexedAccounts :=
      ledgerErase ai.indexedAccounts ⟨account.id, account.version⟩ }

/-- `class AccountManager`: the callback manager plus the indexer. -/
structure AccountManager where
  callbackManager : CallbackManager
  accountIndexer : AccountIndexer
deriving DecidableEq, Repr

/-- The manager constructed by `AccountManager()` before any update is
processed: everything empty. -/
def initialManager : AccountManager :=
  ⟨⟨[], []⟩, ⟨[], []⟩⟩

/-- The ranking queue currently held for a category: the mapped queue if
the category is present, otherwise the empty queue (what
`unordered_map::operator[]` would default-construct). -/
def rankingOf (m : AccountManager) (c : String) : List Account :=
  (mapLookup m.accountIndexer.highestTokenAccounts c).getD []

/-- The capacity trim of `ingestAccountUpdate` lines 319-321: after the
insertion, `if (highestTokensForType.size() > 3) pop();` — pop removes
the queue's top, the minimum-token entry (the model's head). -/
def trimToCapacity (pq : List Account) : List Account :=
  if pq.length > 3 then pq.tail else pq

/-- The unconditional accept tail of `ingestAccountUpdate`
(lines 315-325): index the account in the ledger, insert it into its
type's ranking queue, trim the queue to capacity 3, then schedule its
callback at `fireTime` (in the source,
`now() + callbackTimeMs + random jitter`; passed in explicitly here). -/
def acceptAccountUpdate (m : AccountManager) (account : Account)
    (fireTime : Int) : AccountManager :=
  let ai := AccountIndexer.indexAccount m.accountIndexer account
  let pq := (mapLookup ai.highestTokenAccounts account.accountType).getD []
  let pq := trimToCapacity (insertAccountIntoPriorityQueue pq account)
  { callbackManager :=
      CallbackManager.scheduleCallback m.callbackManager account fireTime,
    accountIndexer :=
      { ai with highestTokenAccounts :=
          mapInsert ai.highestTokenAccounts account.accountType pq } }

/-- `AccountManager::ingestAccountUpdate` (lines 289-326): scan the
ranking queue of the account's type for the id; if found and the incoming
version is not greater, return with no mutation; if found and greater,
cancel the old callback, remove the old ledger entry, remove the id from
the queue, then accept; if not found (or the type has no queue yet),
accept unconditionally. -/
def ingestAccountUpdate (m : AccountManager) (account : Account)
    (fireTime : Int) : AccountManager :=
  match mapLookup m.accountIndexer.highestTokenAccounts account.accountType with
  | some tokenAccounts =>
    match pqFindById tokenAccounts account.id with
    | some oldEntry =>
      if account.version ≤ oldEntry.version then m
      else
        let cm := CallbackManager.cancelCallback m.callbackManager oldEntry
        let ai := AccountIndexer.removeAccount m.accountIndexer oldEntry
        let pqRemoved := removeAccountFromPriorityQueue tokenAccounts account
        let ai :=
          { ai with highestTokenAccounts :=
              mapInsert ai.highestTokenAccounts account.accountType pqRemoved }
        acceptAccountUpdate ⟨cm, ai⟩ account fireTime
    | none => acceptAccountUpdate m account fireTime
  | none => acceptAccountUpdate m account fireTime

/-- `AccountManager::searchAndFilterAccounts` filter (lines 259-261):
skip when a type filter is set (non-empty) and differs, skip when the
token count is outside [minTokens, maxTokens]. -/
def accountMatchesFilter (accountType : String) (minTokens maxTokens : Int)
    (a : Account) : Bool :=
  if accountType ≠ "" ∧ a.accountType ≠ accountType then false
  else if a.tokens < minTokens ∨ a.tokens > maxTokens then false
  else true

/-- `AccountManager::searchAndFilterAccounts` (lines 250-267): linear
scan over the ledger values keeping the accounts that pass the filter.
The C++ defaults are `accountType = ""`, `minTokens = INT_MIN`,
`maxTokens = INT_MAX`. -/
def searchAndFilterAccounts (m : AccountManager) (accountType : String)
    (minTokens maxTokens : Int) : List Account :=
  (m.accountIndexer.indexedAccounts.map (fun p => p.2)).filter
    (accountMatchesFilter accountType minTokens maxTokens)

/-! ## The driver loop

`AccountManager::processAccountUpdates` ingests each parsed update and
then sweeps `fireCallbacks(now())`.  An update step is therefore a pair
of an ingest (with its computed fire time) and a fire sweep at the
wall-clock instant `now`. -/

/-- One driver step: ingest, then fire the due callbacks. -/
def processStep (m : AccountManager) (u : Account × Int × Int) :
    AccountManager :=
  let m1 := ingestAccountUpdate m u.1 u.2.1
  { m1 with callbackManager :=
      (CallbackManager.fireCallbacks m1.callbackManager u.2.2).1 }

/-- The driver loop of `processAccountUpdates` (lines 235-238) over a
list of (update, fireTime, now) triples. -/
def processRun (m : AccountManager) : List (Account × Int × Int) →
    AccountManager
  | [] => m
  | u :: rest => processRun (processStep m u) rest

/-- The reject test of `ingestAccountUpdate` (lines 292-308) in
isolation: the incoming update is stale when its id is found in its
type's ranking queue with a version at least the incoming one. -/
def isStale (m : AccountManager) (account : Account) : Bool :=
  match mapLookup m.accountIndexer.highestTokenAccounts account.accountType with
  | some tokenAccounts =>
    match pqFindById tokenAccounts account.id with
    | some oldEntry => account.version ≤ oldEntry.version
    | none => false
  | none => false

/-- The updates of a run that the pipeline accepts (those that are not
rejected as stale in the state at which they arrive). -/
def acceptedOf (m : AccountManager) : List (Account × Int × Int) →
    List Account
  | [] => []
  | u :: rest =>
    if isStale m u.1 then acceptedOf (processStep m u) rest
    else u.1 :: acceptedOf (processStep m u) rest

/-! ## Concrete fixtures

Small concrete updates and runs used by witness and counterexample
theorems below.  Fire times stand for `now() + callbackTimeMs + jitter`;
the driver sweeps `fireCallbacks` at instant 0 in these runs, before any
scheduled time, so each sweep is a no-op. -/

/-- Build an account with empty opaque data and zero delay field. -/
def mkAccount (id ty : String) (tokens version : Int) : Account :=
  ⟨id, ty, [], tokens, version, 0⟩

/-- The empty callback manager. -/
def emptyCallbackManager : CallbackManager := ⟨[], []⟩

def acctX : Account := mkAccount "X" "t" 100 1
def acctY : Account := mkAccount "Y" "t" 200 1
def acctZ : Account := mkAccount "Z" "t" 300 1
def acctZ2 : Account := mkAccount "Z" "t" 300 2

/-- Callback manager after scheduling X at time 10, Y at 20, Z at 5.
The vector is `[(5,Z), (20,Y), (10,X)]` (Z sifted to the root, moving X
to the last cell) while `indexMap` records X at 0, Y at 1, Z at 2. -/
def cbmXYZ : CallbackManager :=
  CallbackManager.scheduleCallback
    (CallbackManager.scheduleCallback
      (CallbackManager.scheduleCallback emptyCallbackManager acctX 10)
      acctY 20)
    acctZ 5

def acctA : Account := mkAccount "A" "t" 1 1
def acctB : Account := mkAccount "B" "t" 2 1
def acctC : Account := mkAccount "C" "t" 3 1

/-- Callback manager after scheduling A at time 1, B at 2, C at 10: the
vector is `[(1,A), (2,B), (10,C)]`, a valid min-time heap. -/
def cbmABC : CallbackManager :=
  CallbackManager.scheduleCallback
    (CallbackManager.scheduleCallback
      (CallbackManager.scheduleCallback emptyCallbackManager acctA 1)
      acctB 2)
    acctC 10

def acctA1 : Account := mkAccount "a1" "t" 10 1
def acctA2 : Account := mkAccount "a2" "t" 20 1
def acctA3 : Account := mkAccount "a3" "t" 30 1
def acctA4 : Account := mkAccount "a4" "t" 40 1
def acctA1v2 : Account := mkAccount "a1" "t" 50 2

/-- Run in which `a1` is evicted from the top-3 ranking of category `t`:
after `a2`, `a3`, `a4` arrive, the capacity trim pops `a1` (the
minimum-token entry) while its ledger entry and pending callback stay. -/
def runEvictedPrefix : AccountManager :=
  processRun initialManager
    [(acctA1, 10, 0), (acctA2, 11, 0), (acctA3, 12, 0), (acctA4, 13, 0)]

/-- `runEvictedPrefix` followed by version 2 of `a1`. -/
def runEvictedReplay : AccountManager :=
  processRun runEvictedPrefix [(acctA1v2, 14, 0)]

/-- Run of X, Y, Z (version 1) followed by a superseding Z version 2:
the supersession's cancel consults the stale side index, pops X's entry
instead of Z's, and then schedules the new Z callback next to the old
one. -/
def runSupersedeZ : AccountManager :=
  processRun initialManager
    [(acctX, 10, 0), (acctY, 20, 0), (acctZ, 5, 0), (acctZ2, 30, 0)]

/-- State holding exactly account `a1` version 1 in category `t`. -/
def runSingleA1 : AccountManager :=
  processRun initialManager [(acctA1, 10, 0)]

/-- Constant category assignment used by a witness run. -/
def witT : String → String := fun _ => "t"

/-- Three-identifier universe used by a witness run. -/
def witS : String → List String := fun _ => ["a1", "a2", "a3"]

/-- An incoming stale repeat of `a1`: same version 1, different tokens. -/
def acctA1stale : Account := mkAccount "a1" "t" 99 1

/-- For a run whose updates all carry one identifier in one category:
the snapshot retained after folding the accept rule of
`ingestAccountUpdate` over the updates — each update replaces the
current snapshot exactly when its version is strictly higher. -/
def lastAcceptedFrom (cur : Account) (us : List (Account × Int × Int)) :
    Account :=
  us.foldl (fun x u => if (u.1).version ≤ x.version then x else u.1) cur

/-! ## Invariant predicates -/

/-- The RankingTable invariant of claim C4: every category's queue holds
at most 3 entries and no two of its entries share an identifier. -/
def RankingInvariant (m : AccountManager) : Prop :=
  ∀ c, (rankingOf m c).length ≤ 3 ∧
    ((rankingOf m c).map (fun x => x.id)).Nodup

/-- The coupled Ledger/RankingTable invariant used for the amended claim
C2, relative to a category assignment `T` (the category each identifier's
updates carry) and per-category identifier universes `S` (of size at most
3, so that the capacity trim never evicts):
ranked identifiers are duplicate-free, correctly categorised and drawn
from `S`; every ledger entry is keyed by its account's (id, version) and
its account is still ranked; every ranked account has its ledger entry;
and ledger identifiers are duplicate-free. -/
def LedgerRankingInvariant (T : String → String) (S : String → List String)
    (m : AccountManager) : Prop :=
  (∀ c, ((rankingOf m c).map (fun x => x.id)).Nodup) ∧
  (∀ c, ∀ x ∈ rankingOf m c,
    x.accountType = c ∧ T x.id = c ∧ x.id ∈ S c) ∧
  (∀ p ∈ m.accountIndexer.indexedAccounts,
    p.1 = AccountKey.mk p.2.id p.2.version ∧
      p.2 ∈ rankingOf m p.2.accountType) ∧
  (∀ c, ∀ x ∈ rankingOf m c,
    (AccountKey.mk x.id x.version, x) ∈ m.accountIndexer.indexedAccounts) ∧
  ((m.accountIndexer.indexedAccounts.map (fun p => p.1.id)).Nodup)

/-! ## Lemmas: association lists -/

theorem mapLookup_mapInsert_self {β : Type} (m : List (String × β))
    (k : String) (v : β) : mapLookup (mapInsert m k v) k = some v := by
  induction m with
  | nil => simp [mapInsert, mapLookup]
  | cons p rest ih =>
    by_cases h : p.1 = k
    · simp [mapInsert, h, mapLookup]
    · simp [mapInsert, h, mapLookup, ih]

theorem mapLookup_mapInsert_ne {β : Type} (m : List (String × β))
    {k k' : String} (v : β) (h : k ≠ k') :
    mapLookup (mapInsert m k v) k' = mapLookup m k' := by
  induction m with
  | nil => simp [mapInsert, mapLookup, h]
  | cons p rest ih =>
    by_cases hp : p.1 = k
    · simp [mapInsert, hp, mapLookup, h]
    · simp [mapInsert, hp, mapLookup, ih]

/-! ## Lemmas: the ranking queue -/

theorem pqPush_perm (pq : List Account) (a : Account) :
    (pqPush pq a).Perm (a :: pq) := by
  induction pq with
  | nil => exact List.Perm.refl _
  | cons b bs ih =>
    unfold pqPush
    by_cases h : a.tokens < b.tokens
    · rw [if_pos h]
    · rw [if_neg h]
      exact (ih.cons b).trans (List.Perm.swap a b bs)

theorem pqPush_length (pq : List Account) (a : Account) :
    (pqPush pq a).length = pq.length + 1 :=
  (pqPush_perm pq a).length_eq

theorem mem_pqPush {pq : List Account} {a x : Account} :
    x ∈ pqPush pq a ↔ x = a ∨ x ∈ pq := by
  rw [(pqPush_perm pq a).mem_iff, List.mem_cons]

theorem pqFindById_some {pq : List Account} {i : String} {x : Account}
    (h : pqFindById pq i = some x) : x ∈ pq ∧ x.id = i := by
  induction pq with
  | nil => simp [pqFindById] at h
  | cons b bs ih =>
    by_cases hb : b.id = i
    · simp only [pqFindById, if_pos hb] at h
      cases h
      exact ⟨List.mem_cons_self _ _, hb⟩
    · simp only [pqFindById, if_neg hb] at h
      exact ⟨List.mem_cons_of_mem _ (ih h).1, (ih h).2⟩

theorem pqFindById_none {pq : List Account} {i : String}
    (h : pqFindById pq i = none) : ∀ x ∈ pq, x.id ≠ i := by
  induction pq with
  | nil => simp
  | cons b bs ih =>
    by_cases hb : b.id = i
    · simp [pqFindById, hb] at h
    · simp only [pqFindById, if_neg hb] at h
      intro x hx
      rcases List.mem_cons.mp hx with rfl | hx
      · exact hb
      · exact ih h x hx

theorem pqFindById_none_iff {pq : List Account} {i : String} :
    pqFindById pq i = none ↔ ∀ x ∈ pq, x.id ≠ i := by
  constructor
  · exact pqFindById_none
  · intro h
    induction pq with
    | nil => rfl
    | cons b bs ih =>
      have hb : b.id ≠ i := h b (List.mem_cons_self _ _)
      simp only [pqFindById, if_neg hb]
      exact ih (fun x hx => h x (List.mem_cons_of_mem _ hx))

theorem removeAccountFromPriorityQueue_perm {pq : List Account}
    {a old : Account} (h : pqFindById pq a.id = some old) :
    pq.Perm (old :: removeAccountFromPriorityQueue pq a) := by
  induction pq with
  | nil => simp [pqFindById] at h
  | cons b bs ih =>
    by_cases hb : b.id = a.id
    · simp only [pqFindById, if_pos hb] at h
      cases h
      simp only [removeAccountFromPriorityQueue, if_pos hb]
      exact List.Perm.refl _
    · simp only [pqFindById, if_neg hb] at h
      simp only [removeAccountFromPriorityQueue, if_neg hb]
      exact ((ih h).cons b).trans (List.Perm.swap old b _)

theorem pqPush_pairwise {pq : List Account} {a : Account}
    (h : pq.Pairwise tokensLE) : (pqPush pq a).Pairwise tokensLE := by
  induction pq with
  | nil => simp [pqPush, List.pairwise_singleton]
  | cons b bs ih =>
    rcases List.pairwise_cons.mp h with ⟨hb, hbs⟩
    unfold pqPush
    by_cases hlt : a.tokens < b.tokens
    · simp only [if_pos hlt]
      refine List.pairwise_cons.mpr ⟨?_, h⟩
      intro x hx
      rcases List.mem_cons.mp hx with rfl | hx
      · exact le_of_lt hlt
      · exact le_trans (le_of_lt hlt) (hb x hx)
    · simp only [if_neg hlt]
      refine List.pairwise_cons.mpr ⟨?_, ih hbs⟩
      intro x hx
      rcases mem_pqPush.mp hx with rfl | hx
      · exact le_of_not_lt hlt
      · exact hb x hx

/-! ## Lemmas: capacity trim -/

theorem trimToCapacity_eq_self {pq : List Account} (h : pq.length ≤ 3) :
    trimToCapacity pq = pq := by
  unfold trimToCapacity
  rw [if_neg (by omega)]

theorem trimToCapacity_length {pq : List Account} (h : pq.length ≤ 4) :
    (trimToCapacity pq).length ≤ 3 := by
  unfold trimToCapacity
  by_cases h3 : pq.length > 3
  · rw [if_pos h3, List.length_tail]
    omega
  · rw [if_neg h3]
    omega

theorem trimToCapacity_sublist (pq : List Account) :
    (trimToCapacity pq).Sublist pq := by
  unfold trimToCapacity
  by_cases h3 : pq.length > 3
  · rw [if_pos h3]
    exact List.tail_sublist pq
  · rw [if_neg h3]

/-! ## Lemmas: the ledger -/

theorem ledgerErase_sublist (l : List (AccountKey × Account))
    (k : AccountKey) : (ledgerErase l k).Sublist l := by
  induction l with
  | nil => simp [ledgerErase]
  | cons q rest ih =>
    by_cases h : q.1 = k
    · simp only [ledgerErase, if_pos h]
      exact (List.sublist_cons_self q rest)
    · simp only [ledgerErase, if_neg h]
      exact ih.cons₂ q

theorem ledgerPut_eq_append {l : List (AccountKey × Account)}
    {k : AccountKey} (a : Account) (h : ∀ p ∈ l, p.1 ≠ k) :
    ledgerPut l k a = l ++ [(k, a)] := by
  induction l with
  | nil => rfl
  | cons q rest ih =>
    have hq : q.1 ≠ k := h q (List.mem_cons_self _ _)
    simp only [ledgerPut, if_neg hq, List.cons_append, List.cons.injEq,
      true_and]
    exact ih (fun p hp => h p (List.mem_cons_of_mem _ hp))

theorem mem_ledgerErase_of_ne {l : List (AccountKey × Account)}
    {k : AccountKey} {q : AccountKey × Account} (hq : q ∈ l)
    (hne : q.1 ≠ k) : q ∈ ledgerErase l k := by
  induction l with
  | nil => simp at hq
  | cons p rest ih =>
    by_cases h : p.1 = k
    · simp only [ledgerErase, if_pos h]
      rcases List.mem_cons.mp hq with rfl | hq
      · exact absurd h hne
      · exact hq
    · simp only [ledgerErase, if_neg h]
      rcases List.mem_cons.mp hq with rfl | hq
      · exact List.mem_cons_self _ _
      · exact List.mem_cons_of_mem _ (ih hq)

theorem ledgerErase_map_id {l : List (AccountKey × Account)}
    {k : AccountKey} {x : Account} (hmem : (k, x) ∈ l)
    (hnod : (l.map (fun p => p.1.id)).Nodup) :
    (ledgerErase l k).map (fun p => p.1.id)
      = (l.map (fun p => p.1.id)).erase k.id := by
  induction l with
  | nil => simp at hmem
  | cons q rest ih =>
    rcases List.mem_cons.mp hmem with rfl | hmem
    · simp only [ledgerErase, ite_true, List.map_cons]
      rw [List.erase_cons_head]
    · simp only [List.map_cons, List.nodup_cons] at hnod
      have hkid : k.id ∈ rest.map (fun p => p.1.id) :=
        List.mem_map.mpr ⟨(k, x), hmem, rfl⟩
      have hne : q.1.id ≠ k.id := fun h => hnod.1 (h ▸ hkid)
      by_cases h : q.1 = k
      · exact absurd (congrArg AccountKey.id h) hne
      · simp only [ledgerErase, if_neg h, List.map_cons]
        rw [List.erase_cons_tail, ih hmem hnod.2]
        simp [hne]

theorem countById_eq_zero {l : List (AccountKey × Account)} {i : String}
    (h : ∀ p ∈ l, p.1.id ≠ i) : countById l i = 0 := by
  unfold countById
  rw [List.filter_eq_nil_iff.mpr]
  · rfl
  · intro p hp
    simp [h p hp]

theorem countById_cons (q : AccountKey × Account)
    (rest : List (AccountKey × Account)) (i : String) :
    countById (q :: rest) i
      = (if q.1.id = i then 1 else 0) + countById rest i := by
  unfold countById
  by_cases hq : q.1.id = i
  · simp [List.filter_cons, hq, Nat.add_comm]
  · simp [List.filter_cons, hq]

theorem countById_le_one {l : List (AccountKey × Account)} {i : String}
    (h : (l.map (fun p => p.1.id)).Nodup) : countById l i ≤ 1 := by
  induction l with
  | nil => simp [countById]
  | cons q rest ih =>
    simp only [List.map_cons, List.nodup_cons] at h
    rw [countById_cons]
    by_cases hq : q.1.id = i
    · have hz : countById rest i = 0 := by
        refine countById_eq_zero ?_
        intro p hp hpi
        exact h.1 (List.mem_map.mpr ⟨p, hp, by rw [hpi, hq]⟩)
      simp [hq, hz]
    · simpa [hq] using ih h.2

/-! ## Lemmas: the ingestion pipeline -/

theorem acceptAccountUpdate_ledger (m : AccountManager) (a : Account)
    (ft : Int) :
    (acceptAccountUpdate m a ft).accountIndexer.indexedAccounts
      = ledgerPut m.accountIndexer.indexedAccounts ⟨a.id, a.version⟩ a :=
  rfl

theorem acceptAccountUpdate_cm (m : AccountManager) (a : Account)
    (ft : Int) :
    (acceptAccountUpdate m a ft).callbackManager
      = CallbackManager.scheduleCallback m.callbackManager a ft :=
  rfl

theorem acceptAccountUpdate_ranking_self (m : AccountManager) (a : Account)
    (ft : Int) :
    rankingOf (acceptAccountUpdate m a ft) a.accountType
      = trimToCapacity
          (insertAccountIntoPriorityQueue (rankingOf m a.accountType) a) := by
  unfold rankingOf acceptAccountUpdate AccountIndexer.indexAccount
  simp [mapLookup_mapInsert_self]

theorem acceptAccountUpdate_ranking_other (m : AccountManager)
    (a : Account) (ft : Int) {c : String} (h : a.accountType ≠ c) :
    rankingOf (acceptAccountUpdate m a ft) c = rankingOf m c := by
  unfold rankingOf acceptAccountUpdate AccountIndexer.indexAccount
  simp [mapLookup_mapInsert_ne _ _ h]

theorem ingest_of_stale {m : AccountManager} {a old : Account} (ft : Int)
    (hfound : pqFindById (rankingOf m a.accountType) a.id = some old)
    (hle : a.version ≤ old.version) :
    ingestAccountUpdate m a ft = m := by
  unfold ingestAccountUpdate
  cases hmap : mapLookup m.accountIndexer.highestTokenAccounts a.accountType with
  | none =>
    rw [rankingOf, hmap] at hfound
    simp [pqFindById] at hfound
  | some pq =>
    rw [rankingOf, hmap, Option.getD_some] at hfound
    simp [hmap, hfound, hle]

theorem ingest_of_notFound {m : AccountManager} {a : Account} (ft : Int)
    (h : pqFindById (rankingOf m a.accountType) a.id = none) :
    ingestAccountUpdate m a ft = acceptAccountUpdate m a ft := by
  unfold ingestAccountUpdate
  cases hmap : mapLookup m.accountIndexer.highestTokenAccounts a.accountType with
  | none => simp [hmap]
  | some pq =>
    rw [rankingOf, hmap, Option.getD_some] at h
    simp [hmap, h]

theorem ingest_of_supersede {m : AccountManager} {a old : Account}
    (ft : Int)
    (hfound : pqFindById (rankingOf m a.accountType) a.id = some old)
    (hgt : old.version < a.version) :
    ingestAccountUpdate m a ft =
      acceptAccountUpdate
        ⟨CallbackManager.cancelCallback m.callbackManager old,
         ⟨mapInsert m.accountIndexer.highestTokenAccounts a.accountType
            (removeAccountFromPriorityQueue (rankingOf m a.accountType) a),
          ledgerErase m.accountIndexer.indexedAccounts
            ⟨old.id, old.version⟩⟩⟩
        a ft := by
  unfold ingestAccountUpdate
  cases hmap : mapLookup m.accountIndexer.highestTokenAccounts a.accountType with
  | none =>
    rw [rankingOf, hmap] at hfound
    simp [pqFindById] at hfound
  | some pq =>
    have hpq : rankingOf m a.accountType = pq := by
      rw [rankingOf, hmap, Option.getD_some]
    rw [hpq] at hfound
    simp [hmap, hfound, not_le.mpr hgt, AccountIndexer.removeAccount, hpq]

theorem processStep_indexer (m : AccountManager)
    (u : Account × Int × Int) :
    (processStep m u).accountIndexer
      = (ingestAccountUpdate m u.1 u.2.1).accountIndexer :=
  rfl

theorem processRun_cons (m : AccountManager) (u : Account × Int × Int)
    (rest : List (Account × Int × Int)) :
    processRun m (u :: rest) = processRun (processStep m u) rest :=
  rfl

theorem rankingOf_eq_of_indexer (m m' : AccountManager)
    (h : m'.accountIndexer.highestTokenAccounts
      = m.accountIndexer.highestTokenAccounts) (c : String) :
    rankingOf m' c = rankingOf m c := by
  rw [rankingOf, rankingOf, h]

theorem isStale_of_found {m : AccountManager} {a old : Account}
    (hfound : pqFindById (rankingOf m a.accountType) a.id = some old) :
    isStale m a = decide (a.version ≤ old.version) := by
  unfold isStale
  cases hmap : mapLookup m.accountIndexer.highestTokenAccounts a.accountType with
  | none =>
    rw [rankingOf, hmap] at hfound
    simp [pqFindById] at hfound
  | some pq =>
    rw [rankingOf, hmap, Option.getD_some] at hfound
    simp [hfound]

theorem isStale_of_notFound {m : AccountManager} {a : Account}
    (h : pqFindById (rankingOf m a.accountType) a.id = none) :
    isStale m a = false := by
  unfold isStale
  cases hmap : mapLookup m.accountIndexer.highestTokenAccounts a.accountType with
  | none => simp [hmap]
  | some pq =>
    rw [rankingOf, hmap, Option.getD_some] at h
    simp [hmap, h]

/-! ## Lemmas: the query filter -/

theorem accountMatchesFilter_iff (t : String) (lo hi : Int) (a : Account) :
    accountMatchesFilter t lo hi a = true ↔
      ((t = "" ∨ a.accountType = t) ∧ lo ≤ a.tokens ∧ a.tokens ≤ hi) := by
  unfold accountMatchesFilter
  split_ifs with h1 h2
  · simp only [false_iff]
    rintro ⟨hc, -, -⟩
    rcases hc with hc | hc
    · exact h1.1 hc
    · exact h1.2 hc
  · simp only [false_iff]
    rintro ⟨-, hlo, hhi⟩
    rcases h2 with h2 | h2 <;> omega
  · simp only [true_iff]
    push_neg at h2
    refine ⟨?_, h2.1, h2.2⟩
    by_cases ht : t = ""
    · exact Or.inl ht
    · right
      by_contra hty
      exact h1 ⟨ht, hty⟩

/-! ## Frame of the stale-reject branch (claim C3) -/

/-- C3: for every manager state and every incoming update whose
identifier is found in its category's ranking queue holding a version at
least the incoming one (the condition `v ≤ v_old` of the specification,
`v_old` being the ranked entry's version), `ingestAccountUpdate` returns
the state unchanged: Ledger, RankingTable and Scheduler are all exactly
as before. -/
theorem stale_update_is_exact_noop (m : AccountManager) (a old : Account)
    (ft : Int)
    (hfound : pqFindById (rankingOf m a.accountType) a.id = some old)
    (hle : a.version ≤ old.version) :
    ingestAccountUpdate m a ft = m :=
  ingest_of_stale ft hfound hle

/-- Witness for C3: in the state holding `a1` version 1, a repeat of
`a1` with version 1 (and different tokens) is rejected without any
mutation. -/
theorem stale_update_is_exact_noop_witness :
    pqFindById (rankingOf runSingleA1 acctA1stale.accountType)
        acctA1stale.id = some acctA1 ∧
    acctA1stale.version ≤ acctA1.version ∧
    ingestAccountUpdate runSingleA1 acctA1stale 50 = runSingleA1 :=
  ⟨by decide, by decide,
    stale_update_is_exact_noop runSingleA1 acctA1stale acctA1 50
      (by decide) (by decide)⟩

/-! ## The not-in-ranking accept path (claim C10) -/

/-- C10: whenever the incoming update's identifier does not appear in the
ranking queue of its category, `ingestAccountUpdate` runs the full accept
sequence unconditionally — it puts the snapshot into the Ledger, inserts
it into the category's ranking (with the capacity trim), and schedules a
new callback — for every state, hence regardless of the incoming version
and regardless of what the Ledger or the Scheduler already hold for that
identifier. -/
theorem unranked_update_accepted_unconditionally (m : AccountManager)
    (a : Account) (ft : Int)
    (h : pqFindById (rankingOf m a.accountType) a.id = none) :
    ingestAccountUpdate m a ft = acceptAccountUpdate m a ft ∧
    (ingestAccountUpdate m a ft).accountIndexer.indexedAccounts
      = ledgerPut m.accountIndexer.indexedAccounts ⟨a.id, a.version⟩ a ∧
    rankingOf (ingestAccountUpdate m a ft) a.accountType
      = trimToCapacity
          (insertAccountIntoPriorityQueue (rankingOf m a.accountType) a) ∧
    (ingestAccountUpdate m a ft).callbackManager
      = CallbackManager.scheduleCallback m.callbackManager a ft := by
  have he := ingest_of_notFound ft h
  refine ⟨he, ?_, ?_, ?_⟩ <;> rw [he]
  · exact acceptAccountUpdate_ledger m a ft
  · exact acceptAccountUpdate_ranking_self m a ft
  · exact acceptAccountUpdate_cm m a ft

/-- Witness for C10: after `a1` was evicted from the ranking of `t`, the
stale version-1 repeat of `a1` is nevertheless fully accepted — even
though the Ledger still holds `(a1, 1)` and the Scheduler still has a
pending callback for `a1`. -/
theorem unranked_update_accepted_unconditionally_witness :
    pqFindById (rankingOf runEvictedPrefix acctA1stale.accountType)
        acctA1stale.id = none ∧
    countById runEvictedPrefix.accountIndexer.indexedAccounts "a1" = 1 ∧
    ingestAccountUpdate runEvictedPrefix acctA1stale 14
      = acceptAccountUpdate runEvictedPrefix acctA1stale 14 :=
  ⟨by decide, by decide,
    (unranked_update_accepted_unconditionally runEvictedPrefix acctA1stale
      14 (by decide)).1⟩

/-! ## The capacity eviction (claim C5) -/

/-- C5: when inserting an account makes a category's queue exceed the
capacity 3, the trim of `ingestAccountUpdate` removes exactly one entry,
the head of the queue, and on a queue sorted by ascending tokens (the
order every reachable queue has) that head carries the minimum token
count of all entries currently held. -/
theorem overflow_evicts_lowest_metric (pq : List Account) (a : Account)
    (hs : pq.Pairwise tokensLE)
    (hover : (insertAccountIntoPriorityQueue pq a).length > 3) :
    ∃ evicted rest,
      insertAccountIntoPriorityQueue pq a = evicted :: rest ∧
      trimToCapacity (insertAccountIntoPriorityQueue pq a) = rest ∧
      ∀ b ∈ insertAccountIntoPriorityQueue pq a,
        evicted.tokens ≤ b.tokens := by
  have hs' : (insertAccountIntoPriorityQueue pq a).Pairwise tokensLE :=
    pqPush_pairwise hs
  obtain ⟨e, rest, hcons⟩ :
      ∃ e rest, insertAccountIntoPriorityQueue pq a = e :: rest := by
    cases hl : insertAccountIntoPriorityQueue pq a with
    | nil => rw [hl] at hover; simp at hover
    | cons e rest => exact ⟨e, rest, rfl⟩
  refine ⟨e, rest, hcons, ?_, ?_⟩
  · rw [trimToCapacity, if_pos hover, hcons]
    rfl
  · intro b hb
    rw [hcons] at hb hs'
    rcases List.mem_cons.mp hb with rfl | hb
    · exact le_refl _
    · exact (List.pairwise_cons.mp hs').1 b hb

/-- Witness for C5: inserting 5-token `a1v1r` into the sorted three-entry
queue [a2, a3, a4] overflows; the trim drops the 5-token entry, the
minimum. -/
theorem overflow_evicts_lowest_metric_witness :
    ([acctA2, acctA3, acctA4].Pairwise tokensLE) ∧
    (insertAccountIntoPriorityQueue [acctA2, acctA3, acctA4] acctA1).length
      > 3 ∧
    ∃ evicted rest,
      insertAccountIntoPriorityQueue [acctA2, acctA3, acctA4] acctA1
        = evicted :: rest ∧
      trimToCapacity
          (insertAccountIntoPriorityQueue [acctA2, acctA3, acctA4] acctA1)
        = rest ∧
      ∀ b ∈ insertAccountIntoPriorityQueue [acctA2, acctA3, acctA4] acctA1,
        evicted.tokens ≤ b.tokens :=
  ⟨by decide, by decide,
    overflow_evicts_lowest_metric [acctA2, acctA3, acctA4] acctA1
      (by decide) (by decide)⟩

/-! ## The query filter (claim C9) -/

/-- C9: `searchAndFilterAccounts` returns exactly the Ledger snapshots
satisfying the filter: an empty account-type filter matches every type,
and the token count must lie in [minTokens, maxTokens] (the C++ defaults
INT_MIN / INT_MAX make an unspecified bound vacuous). -/
theorem search_filter_exact (m : AccountManager) (t : String)
    (lo hi : Int) (a : Account) :
    a ∈ searchAndFilterAccounts m t lo hi ↔
      ((∃ k, (k, a) ∈ m.accountIndexer.indexedAccounts) ∧
        (t = "" ∨ a.accountType = t) ∧ lo ≤ a.tokens ∧ a.tokens ≤ hi) := by
  unfold searchAndFilterAccounts
  simp only [List.mem_filter, List.mem_map, accountMatchesFilter_iff]
  constructor
  · rintro ⟨⟨p, hp, rfl⟩, hmatch⟩
    exact ⟨⟨p.1, hp⟩, hmatch⟩
  · rintro ⟨⟨k, hk⟩, hmatch⟩
    exact ⟨⟨(k, a), hk, rfl⟩, hmatch⟩

/-! ## Evaluation of the scheduler bugs (claims C6, C7, C8) -/

/-- C6: evaluated at a concrete state, `cancelCallback` removes the wrong
entry.  After scheduling X at 10, Y at 20 and Z at 5, the heap vector is
[(5,Z), (20,Y), (10,X)] — `push_heap` sifted Z to the root and moved X to
the last cell — while `indexMap` still records the pre-sift positions
X at 0, Y at 1, Z at 2.  Cancelling Z therefore removes the entry at the
recorded index 2, which is X's: X's pending notification disappears and
Z's stays pending, contradicting the claim that cancel removes exactly
the target identifier's entry and leaves every other identifier's entry
in place. -/
theorem cancelCallback_removes_wrong_entry :
    cbmXYZ.callbacks.map (fun p => (p.1, p.2.id))
      = [(5, "Z"), (20, "Y"), (10, "X")] ∧
    cbmXYZ.indexMap = [("X", 0), ("Y", 1), ("Z", 2)] ∧
    (CallbackManager.cancelCallback cbmXYZ acctZ).callbacks.map
        (fun p => (p.1, p.2.id))
      = [(5, "Z"), (20, "Y")] := by
  refine ⟨by decide, by decide, by decide⟩

/-- C7: evaluated at a concrete state, `fireCallbacks` misses a due
entry.  With the valid min-time heap [(1,A), (2,B), (10,C)] and
`now = 2`, both A and B are due.  The sweep fires A, but the `pop_heap`
at line 146 omits `AccountTimeComparator` and re-arranges the remaining
cells with `std::less`, leaving [(10,C), (2,B)]; the next front (10,C)
exceeds `now`, so the loop stops with the due entry (2,B) still pending.
Additionally the side-index erase, made through a reference that after
the pops denotes the new front, drops C's entry instead of A's. -/
theorem fireCallbacks_misses_due_entry :
    cbmABC.callbacks.map (fun p => (p.1, p.2.id))
      = [(1, "A"), (2, "B"), (10, "C")] ∧
    (CallbackManager.fireCallbacks cbmABC 2).2 = [("A", 1)] ∧
    (CallbackManager.fireCallbacks cbmABC 2).1.callbacks.map
        (fun p => (p.1, p.2.id))
      = [(10, "C"), (2, "B")] ∧
    (CallbackManager.fireCallbacks cbmABC 2).1.indexMap
      = [("A", 0), ("B", 1)] := by
  refine ⟨by decide, by decide, by decide, by decide⟩

/-- C8: evaluated on a full ingest run, a supersession leaves two pending
notifications for one identifier.  After ingesting X (fire time 10),
Y (20) and Z (5), the stale side index sends Z's cancellation to index 2,
which removes X's entry while Z's old callback stays; the supersession of
Z then schedules the version-2 callback next to it, so the scheduler
holds Z twice (times 5 and 30) — and X, still ranked and ledgered, has no
pending notification at all. -/
theorem supersession_duplicates_pending_entry :
    runSupersedeZ.callbackManager.callbacks.map
        (fun p => (p.1, p.2.id, p.2.version))
      = [(5, "Z", 1), (20, "Y", 1), (30, "Z", 2)] ∧
    (runSupersedeZ.callbackManager.callbacks.filter
        (fun p => p.2.id = "Z")).length = 2 := by
  refine ⟨by decide, by decide⟩

/-! ## The eviction replay (claim C2) -/

/-- Counterexample to C2 as stated: after `a1` (version 1) is evicted
from the top-3 ranking of its category by `a2`, `a3`, `a4`, a version-2
update of `a1` is accepted through the not-in-ranking path, which indexes
the new snapshot without removing the old key — the Ledger then holds two
entries for identifier `a1`, keys (a1,1) and (a1,2). -/
theorem ledger_duplicate_entry_after_eviction :
    runEvictedReplay.accountIndexer.indexedAccounts.map
        (fun p => (p.1.id, p.1.version))
      = [("a1", 1), ("a2", 1), ("a3", 1), ("a4", 1), ("a1", 2)] ∧
    ¬ countById runEvictedReplay.accountIndexer.indexedAccounts "a1" ≤ 1 := by
  refine ⟨by decide, by decide⟩

/-! ## Lemmas: rankings through one driver step -/

theorem rankingOf_mk (cm : CallbackManager)
    (hmap : List (String × List Account))
    (led : List (AccountKey × Account)) (c : String) :
    rankingOf ⟨cm, ⟨hmap, led⟩⟩ c = (mapLookup hmap c).getD [] :=
  rfl

theorem processStep_rankingOf (m : AccountManager)
    (u : Account × Int × Int) (c : String) :
    rankingOf (processStep m u) c
      = rankingOf (ingestAccountUpdate m u.1 u.2.1) c :=
  rfl

theorem processStep_ledger (m : AccountManager) (u : Account × Int × Int) :
    (processStep m u).accountIndexer.indexedAccounts
      = (ingestAccountUpdate m u.1 u.2.1).accountIndexer.indexedAccounts :=
  rfl

theorem supersede_ranking_self {m : AccountManager} {a old : Account}
    (ft : Int)
    (hfound : pqFindById (rankingOf m a.accountType) a.id = some old)
    (hgt : old.version < a.version) :
    rankingOf (ingestAccountUpdate m a ft) a.accountType
      = trimToCapacity
          (insertAccountIntoPriorityQueue
            (removeAccountFromPriorityQueue (rankingOf m a.accountType) a)
            a) := by
  rw [ingest_of_supersede ft hfound hgt, acceptAccountUpdate_ranking_self]
  rw [rankingOf_mk, mapLookup_mapInsert_self, Option.getD_some]

theorem supersede_ranking_other {m : AccountManager} {a old : Account}
    (ft : Int)
    (hfound : pqFindById (rankingOf m a.accountType) a.id = some old)
    (hgt : old.version < a.version) {c : String}
    (hc : a.accountType ≠ c) :
    rankingOf (ingestAccountUpdate m a ft) c = rankingOf m c := by
  rw [ingest_of_supersede ft hfound hgt,
    acceptAccountUpdate_ranking_other _ _ _ hc]
  rw [rankingOf_mk, mapLookup_mapInsert_ne _ _ hc]
  rfl

theorem supersede_ledger {m : AccountManager} {a old : Account} (ft : Int)
    (hfound : pqFindById (rankingOf m a.accountType) a.id = some old)
    (hgt : old.version < a.version) :
    (ingestAccountUpdate m a ft).accountIndexer.indexedAccounts
      = ledgerPut
          (ledgerErase m.accountIndexer.indexedAccounts
            ⟨old.id, old.version⟩)
          ⟨a.id, a.version⟩ a := by
  rw [ingest_of_supersede ft hfound hgt, acceptAccountUpdate_ledger]

theorem notFound_ranking_self {m : AccountManager} {a : Account} (ft : Int)
    (h : pqFindById (rankingOf m a.accountType) a.id = none) :
    rankingOf (ingestAccountUpdate m a ft) a.accountType
      = trimToCapacity
          (insertAccountIntoPriorityQueue (rankingOf m a.accountType) a) := by
  rw [ingest_of_notFound ft h, acceptAccountUpdate_ranking_self]

theorem notFound_ranking_other {m : AccountManager} {a : Account} (ft : Int)
    (h : pqFindById (rankingOf m a.accountType) a.id = none) {c : String}
    (hc : a.accountType ≠ c) :
    rankingOf (ingestAccountUpdate m a ft) c = rankingOf m c := by
  rw [ingest_of_notFound ft h, acceptAccountUpdate_ranking_other _ _ _ hc]

theorem notFound_ledger {m : AccountManager} {a : Account} (ft : Int)
    (h : pqFindById (rankingOf m a.accountType) a.id = none) :
    (ingestAccountUpdate m a ft).accountIndexer.indexedAccounts
      = ledgerPut m.accountIndexer.indexedAccounts ⟨a.id, a.version⟩ a := by
  rw [ingest_of_notFound ft h, acceptAccountUpdate_ledger]

/-! ## The ranking invariant (claim C4) -/

theorem rankingInvariant_initial : RankingInvariant initialManager := by
  intro c
  constructor <;> simp [rankingOf, initialManager, mapLookup]

theorem rankingInvariant_step (m : AccountManager)
    (u : Account × Int × Int) (h : RankingInvariant m) :
    RankingInvariant (processStep m u) := by
  obtain ⟨a, ft, now⟩ := u
  intro c
  rw [processStep_rankingOf]
  cases hf : pqFindById (rankingOf m a.accountType) a.id with
  | none =>
    by_cases hc : a.accountType = c
    · subst hc
      rw [notFound_ranking_self ft hf]
      have hnd : ((insertAccountIntoPriorityQueue (rankingOf m a.accountType)
          a).map (fun x => x.id)).Nodup := by
        have hperm :
            ((insertAccountIntoPriorityQueue (rankingOf m a.accountType)
              a).map (fun x => x.id)).Perm
              (a.id :: (rankingOf m a.accountType).map (fun x => x.id)) :=
          (pqPush_perm _ a).map _
        rw [hperm.nodup_iff]
        refine List.nodup_cons.mpr ⟨?_, (h a.accountType).2⟩
        intro hmem
        obtain ⟨x, hx, hxid⟩ := List.mem_map.mp hmem
        exact pqFindById_none hf x hx hxid
      constructor
      · apply trimToCapacity_length
        rw [insertAccountIntoPriorityQueue, pqPush_length]
        have := (h a.accountType).1
        omega
      · exact hnd.sublist ((trimToCapacity_sublist _).map _)
    · rw [notFound_ranking_other ft hf hc]
      exact h c
  | some old =>
    by_cases hv : a.version ≤ old.version
    · rw [ingest_of_stale ft hf hv]
      exact h c
    · have hgt : old.version < a.version := not_le.mp hv
      by_cases hc : a.accountType = c
      · subst hc
        rw [supersede_ranking_self ft hf hgt]
        have hrm := removeAccountFromPriorityQueue_perm hf
        have hrm_len :
            (removeAccountFromPriorityQueue (rankingOf m a.accountType)
              a).length + 1 = (rankingOf m a.accountType).length := by
          have := hrm.length_eq
          simp at this
          omega
        have hrm_nodup :
            (a.id :: (removeAccountFromPriorityQueue
              (rankingOf m a.accountType) a).map (fun x => x.id)).Nodup := by
          have hperm := hrm.map (fun x => x.id)
          have hh := (h a.accountType).2
          rw [hperm.nodup_iff] at hh
          simp only [List.map_cons] at hh
          rw [(pqFindById_some hf).2] at hh
          exact hh
        have hnd : ((insertAccountIntoPriorityQueue
            (removeAccountFromPriorityQueue (rankingOf m a.accountType) a)
            a).map (fun x => x.id)).Nodup := by
          have hperm :
              ((insertAccountIntoPriorityQueue
                (removeAccountFromPriorityQueue (rankingOf m a.accountType)
                  a) a).map (fun x => x.id)).Perm
                (a.id :: (removeAccountFromPriorityQueue
                  (rankingOf m a.accountType) a).map (fun x => x.id)) :=
            (pqPush_perm _ a).map _
          rw [hperm.nodup_iff]
          exact hrm_nodup
        constructor
        · apply trimToCapacity_length
          rw [insertAccountIntoPriorityQueue, pqPush_length]
          have := (h a.accountType).1
          omega
        · exact hnd.sublist ((trimToCapacity_sublist _).map _)
      · rw [supersede_ranking_other ft hf hgt hc]
        exact h c

theorem rankingInvariant_run (us : List (Account × Int × Int)) :
    ∀ m : AccountManager, RankingInvariant m →
      RankingInvariant (processRun m us) := by
  induction us with
  | nil => intro m h; exact h
  | cons u rest ih =>
    intro m h
    rw [processRun_cons]
    exact ih _ (rankingInvariant_step m u h)

/-- C4: after processing any sequence of updates (so in particular after
each update of a longer sequence, by instantiating with its prefixes),
every category's ranking queue holds at most 3 entries and no two entries
in a category share an identifier. -/
theorem ranking_bounded_and_duplicate_free
    (us : List (Account × Int × Int)) (c : String) :
    (rankingOf (processRun initialManager us) c).length ≤ 3 ∧
    ((rankingOf (processRun initialManager us) c).map
      (fun x => x.id)).Nodup :=
  rankingInvariant_run us initialManager rankingInvariant_initial c

/-! ## The single-identifier run (claim C1) -/

theorem notFound_rankingMap {m : AccountManager} {a : Account} (ft : Int)
    (h : pqFindById (rankingOf m a.accountType) a.id = none) :
    (ingestAccountUpdate m a ft).accountIndexer.highestTokenAccounts
      = mapInsert m.accountIndexer.highestTokenAccounts a.accountType
          (trimToCapacity
            (insertAccountIntoPriorityQueue (rankingOf m a.accountType)
              a)) := by
  rw [ingest_of_notFound ft h]
  rfl

theorem supersede_rankingMap {m : AccountManager} {a old : Account}
    (ft : Int)
    (hfound : pqFindById (rankingOf m a.accountType) a.id = some old)
    (hgt : old.version < a.version) :
    (ingestAccountUpdate m a ft).accountIndexer.highestTokenAccounts
      = mapInsert
          (mapInsert m.accountIndexer.highestTokenAccounts a.accountType
            (removeAccountFromPriorityQueue (rankingOf m a.accountType) a))
          a.accountType
          (trimToCapacity
            (insertAccountIntoPriorityQueue
              (removeAccountFromPriorityQueue (rankingOf m a.accountType) a)
              a)) := by
  rw [ingest_of_supersede ft hfound hgt]
  show mapInsert _ _ (trimToCapacity (insertAccountIntoPriorityQueue
    ((mapLookup (mapInsert m.accountIndexer.highestTokenAccounts
      a.accountType (removeAccountFromPriorityQueue
        (rankingOf m a.accountType) a)) a.accountType).getD []) a)) = _
  rw [mapLookup_mapInsert_self, Option.getD_some]
  rfl

theorem lastAcceptedFrom_cons (cur : Account) (u : Account × Int × Int)
    (rest : List (Account × Int × Int)) :
    lastAcceptedFrom cur (u :: rest)
      = lastAcceptedFrom
          (if (u.1).version ≤ cur.version then cur else u.1) rest :=
  rfl

theorem singleIdRun_invariant (us : List (Account × Int × Int)) :
    ∀ (m : AccountManager) (cur : Account),
    (∀ u ∈ us, (u.1).id = cur.id ∧ (u.1).accountType = cur.accountType) →
    m.accountIndexer.highestTokenAccounts = [(cur.accountType, [cur])] →
    m.accountIndexer.indexedAccounts
      = [(AccountKey.mk cur.id cur.version, cur)] →
    ((processRun m us).accountIndexer.highestTokenAccounts
        = [((lastAcceptedFrom cur us).accountType,
            [lastAcceptedFrom cur us])] ∧
      (processRun m us).accountIndexer.indexedAccounts
        = [(AccountKey.mk (lastAcceptedFrom cur us).id
              (lastAcceptedFrom cur us).version, lastAcceptedFrom cur us)] ∧
      (lastAcceptedFrom cur us).id = cur.id ∧
      (lastAcceptedFrom cur us).accountType = cur.accountType ∧
      cur.version ≤ (lastAcceptedFrom cur us).version ∧
      (lastAcceptedFrom cur us = cur ∨
        lastAcceptedFrom cur us ∈ acceptedOf m us) ∧
      (∀ x ∈ acceptedOf m us,
        x.version ≤ (lastAcceptedFrom cur us).version)) := by
  induction us with
  | nil =>
    intro m cur _ hmap hled
    refine ⟨?_, ?_, rfl, rfl, le_refl _, Or.inl rfl, ?_⟩
    · simpa [processRun, lastAcceptedFrom] using hmap
    · simpa [processRun, lastAcceptedFrom] using hled
    · intro x hx
      simp [acceptedOf] at hx
  | cons u rest ih =>
    intro m cur hall hmap hled
    obtain ⟨a, ft, now⟩ := u
    have ha := hall _ (List.mem_cons_self _ _)
    have ha1 : a.id = cur.id := ha.1
    have ha2 : a.accountType = cur.accountType := ha.2
    have hrank : rankingOf m a.accountType = [cur] := by
      rw [rankingOf, hmap]
      simp [mapLookup, ha2]
    have hfind : pqFindById (rankingOf m a.accountType) a.id = some cur := by
      rw [hrank]
      simp [pqFindById, ha1.symm]
    have hall' : ∀ u' ∈ rest,
        (u'.1).id = cur.id ∧ (u'.1).accountType = cur.accountType :=
      fun u' hu' => hall u' (List.mem_cons_of_mem _ hu')
    by_cases hv : a.version ≤ cur.version
    · -- stale: no mutation
      have hst : isStale m a = true := by
        rw [isStale_of_found hfind]
        simp [hv]
      have hingest : ingestAccountUpdate m a ft = m :=
        ingest_of_stale ft hfind hv
      have hidx : (processStep m (a, ft, now)).accountIndexer
          = m.accountIndexer := by
        rw [processStep_indexer]
        show (ingestAccountUpdate m a ft).accountIndexer = _
        rw [hingest]
      have hacc : acceptedOf m ((a, ft, now) :: rest)
          = acceptedOf (processStep m (a, ft, now)) rest := by
        simp only [acceptedOf]
        rw [hst]
        simp
      have hfold : lastAcceptedFrom cur ((a, ft, now) :: rest)
          = lastAcceptedFrom cur rest := by
        rw [lastAcceptedFrom_cons]
        simp [hv]
      rw [processRun_cons, hacc, hfold]
      exact ih (processStep m (a, ft, now)) cur hall'
        (by rw [hidx, hmap]) (by rw [hidx, hled])
    · -- supersession: cur is replaced by a
      have hgt : cur.version < a.version := not_le.mp hv
      have hst : isStale m a = false := by
        rw [isStale_of_found hfind]
        simp [hv]
      have hmap' : (processStep m (a, ft, now)).accountIndexer.highestTokenAccounts
          = [(a.accountType, [a])] := by
        rw [processStep_indexer]
        show (ingestAccountUpdate m a ft).accountIndexer.highestTokenAccounts = _
        rw [supersede_rankingMap ft hfind hgt, hmap, hrank]
        simp [removeAccountFromPriorityQueue, ha1.symm, mapInsert, ha2,
          insertAccountIntoPriorityQueue, pqPush, trimToCapacity]
      have hled' : (processStep m (a, ft, now)).accountIndexer.indexedAccounts
          = [(AccountKey.mk a.id a.version, a)] := by
        rw [processStep_ledger]
        show (ingestAccountUpdate m a ft).accountIndexer.indexedAccounts = _
        rw [supersede_ledger ft hfind hgt, hled]
        simp [ledgerErase, ledgerPut]
      have hall'' : ∀ u' ∈ rest,
          (u'.1).id = a.id ∧ (u'.1).accountType = a.accountType := by
        intro u' hu'
        rw [ha1, ha2]
        exact hall' u' hu'
      have hacc : acceptedOf m ((a, ft, now) :: rest)
          = a :: acceptedOf (processStep m (a, ft, now)) rest := by
        simp only [acceptedOf]
        rw [hst]
        simp
      have hfold : lastAcceptedFrom cur ((a, ft, now) :: rest)
          = lastAcceptedFrom a rest := by
        rw [lastAcceptedFrom_cons]
        simp [hv]
      rw [processRun_cons, hacc, hfold]
      obtain ⟨c1, c2, c3, c4, c5, c6, c7⟩ :=
        ih (processStep m (a, ft, now)) a hall'' hmap' hled'
      refine ⟨c1, c2, by rw [c3, ha1], by rw [c4, ha2],
        le_of_lt (lt_of_lt_of_le hgt c5), ?_, ?_⟩
      · rcases c6 with hc | hc
        · exact Or.inr (by rw [hc]; exact List.mem_cons_self _ _)
        · exact Or.inr (List.mem_cons_of_mem _ hc)
      · intro x hx
        rcases List.mem_cons.mp hx with rfl | hx
        · exact c5
        · exact c7 x hx

/-- C1: for every non-empty sequence of updates sharing one identifier
`i` within one category `c`, processing the whole sequence from the
empty manager leaves the Ledger with exactly one snapshot for `i` — a
single entry keyed (i, b.version) — and that snapshot `b` is an accepted
update carrying the maximum version among all accepted updates,
regardless of arrival order. -/
theorem ledger_holds_exactly_max_accepted (us : List (Account × Int × Int))
    (i c : String) (hne : us ≠ [])
    (hall : ∀ u ∈ us, (u.1).id = i ∧ (u.1).accountType = c) :
    ∃ b : Account, b.id = i ∧
      (processRun initialManager us).accountIndexer.indexedAccounts
        = [(AccountKey.mk i b.version, b)] ∧
      b ∈ acceptedOf initialManager us ∧
      ∀ x ∈ acceptedOf initialManager us, x.version ≤ b.version := by
  cases us with
  | nil => exact absurd rfl hne
  | cons u rest =>
    obtain ⟨a, ft, now⟩ := u
    have ha := hall _ (List.mem_cons_self _ _)
    have ha1 : a.id = i := ha.1
    have ha2 : a.accountType = c := ha.2
    have hmap1 : (processStep initialManager
        (a, ft, now)).accountIndexer.highestTokenAccounts
        = [(a.accountType, [a])] := rfl
    have hled1 : (processStep initialManager
        (a, ft, now)).accountIndexer.indexedAccounts
        = [(AccountKey.mk a.id a.version, a)] := rfl
    have hall1 : ∀ u' ∈ rest,
        (u'.1).id = a.id ∧ (u'.1).accountType = a.accountType := by
      intro u' hu'
      have h' := hall u' (List.mem_cons_of_mem _ hu')
      rw [ha1, ha2]
      exact h'
    have hacc : acceptedOf initialManager ((a, ft, now) :: rest)
        = a :: acceptedOf (processStep initialManager (a, ft, now)) rest := by
      simp only [acceptedOf]
      rw [show isStale initialManager a = false from rfl]
      simp
    obtain ⟨c1, c2, c3, c4, c5, c6, c7⟩ :=
      singleIdRun_invariant rest
        (processStep initialManager (a, ft, now)) a hall1 hmap1 hled1
    refine ⟨lastAcceptedFrom a rest, by rw [c3, ha1], ?_, ?_, ?_⟩
    · rw [processRun_cons, c2, c3, ha1]
    · rw [hacc]
      rcases c6 with hc | hc
      · rw [hc]
        exact List.mem_cons_self _ _
      · exact List.mem_cons_of_mem _ hc
    · intro x hx
      rw [hacc] at hx
      rcases List.mem_cons.mp hx with rfl | hx
      · exact c5
      · exact c7 x hx

/-- Witness for C1: the two-update run `a1` version 1 then version 2
yields a Ledger holding exactly (a1, 2). -/
theorem ledger_holds_exactly_max_accepted_witness :
    ∃ b : Account, b.id = "a1" ∧
      (processRun initialManager
        [(acctA1, 10, 0), (acctA1v2, 11, 0)]).accountIndexer.indexedAccounts
        = [(AccountKey.mk "a1" b.version, b)] ∧
      b ∈ acceptedOf initialManager [(acctA1, 10, 0), (acctA1v2, 11, 0)] ∧
      ∀ x ∈ acceptedOf initialManager [(acctA1, 10, 0), (acctA1v2, 11, 0)],
        x.version ≤ b.version :=
  ledger_holds_exactly_max_accepted
    [(acctA1, 10, 0), (acctA1v2, 11, 0)] "a1" "t" (by decide) (by decide)

/-! ## The coupled Ledger/Ranking invariant (claim C2, amended) -/

theorem insertAccountIntoPriorityQueue_eq (pq : List Account)
    (a : Account) : insertAccountIntoPriorityQueue pq a = pqPush pq a :=
  rfl

theorem length_le_of_nodup_subset {l s : List String} (hnd : l.Nodup)
    (hsub : ∀ x ∈ l, x ∈ s) : l.length ≤ s.length :=
  (hnd.subperm (fun x hx => hsub x hx)).length_le

theorem trim_eq_of_ids_bounded {pq : List Account} {s : List String}
    (h3 : s.length ≤ 3) (hnd : (pq.map (fun x => x.id)).Nodup)
    (hsub : ∀ x ∈ pq, x.id ∈ s) : trimToCapacity pq = pq := by
  apply trimToCapacity_eq_self
  have hlen : (pq.map (fun x => x.id)).length ≤ s.length := by
    apply length_le_of_nodup_subset hnd
    intro y hy
    obtain ⟨x, hx, rfl⟩ := List.mem_map.mp hy
    exact hsub x hx
  rw [List.length_map] at hlen
  omega

theorem nodup_append_singleton {l : List String} {x : String}
    (hnd : l.Nodup) (hx : x ∉ l) : (l ++ [x]).Nodup := by
  rw [List.nodup_append]
  exact ⟨hnd, List.nodup_singleton _, fun y hy hy' => by
    rw [List.mem_singleton.mp hy'] at hy
    exact hx hy⟩

theorem ledgerRankingInvariant_notFound (T : String → String)
    (S : String → List String) (hS : ∀ c, (S c).length ≤ 3)
    {m : AccountManager} {a : Account} (ft : Int)
    (hT : T a.id = a.accountType) (hidmem : a.id ∈ S a.accountType)
    (hf : pqFindById (rankingOf m a.accountType) a.id = none)
    (h : LedgerRankingInvariant T S m) :
    LedgerRankingInvariant T S (ingestAccountUpdate m a ft) := by
  obtain ⟨hRnd, hRty, hLsh, hRinL, hLnd⟩ := h
  have hNoLedger : ∀ p ∈ m.accountIndexer.indexedAccounts,
      p.1.id ≠ a.id := by
    intro p hp hpid
    obtain ⟨hkey, hmemRank⟩ := hLsh p hp
    have hpid2 : p.2.id = a.id := by rw [← hpid, hkey]
    have hty : p.2.accountType = a.accountType := by
      have h1 := (hRty _ p.2 hmemRank).2.1
      rw [← h1, hpid2, hT]
    rw [hty] at hmemRank
    exact pqFindById_none hf p.2 hmemRank hpid2
  have hPushNodup : ((pqPush (rankingOf m a.accountType) a).map
      (fun x => x.id)).Nodup := by
    rw [((pqPush_perm _ a).map (fun x => x.id)).nodup_iff]
    refine List.nodup_cons.mpr ⟨?_, hRnd a.accountType⟩
    intro hmem'
    obtain ⟨x, hx, hxid⟩ := List.mem_map.mp hmem'
    exact pqFindById_none hf x hx hxid
  have hPushSub : ∀ x ∈ pqPush (rankingOf m a.accountType) a,
      x.id ∈ S a.accountType := by
    intro x hx
    rcases mem_pqPush.mp hx with rfl | hx
    · exact hidmem
    · exact (hRty _ x hx).2.2
  have hTrimEq : trimToCapacity (pqPush (rankingOf m a.accountType) a)
      = pqPush (rankingOf m a.accountType) a :=
    trim_eq_of_ids_bounded (hS a.accountType) hPushNodup hPushSub
  have hRankSelf : rankingOf (ingestAccountUpdate m a ft) a.accountType
      = pqPush (rankingOf m a.accountType) a := by
    rw [notFound_ranking_self ft hf, insertAccountIntoPriorityQueue_eq,
      hTrimEq]
  have hRankOther : ∀ c, a.accountType ≠ c →
      rankingOf (ingestAccountUpdate m a ft) c = rankingOf m c :=
    fun c hc => notFound_ranking_other ft hf hc
  have hLedgerEq : (ingestAccountUpdate m a ft).accountIndexer.indexedAccounts
      = m.accountIndexer.indexedAccounts ++ [(AccountKey.mk a.id a.version, a)] := by
    rw [notFound_ledger ft hf]
    exact ledgerPut_eq_append a
      (fun p hp hk => hNoLedger p hp (by rw [hk]))
  refine ⟨?_, ?_, ?_, ?_, ?_⟩
  · -- ranked ids distinct
    intro c
    by_cases hc : a.accountType = c
    · subst hc
      rw [hRankSelf]
      exact hPushNodup
    · rw [hRankOther c hc]
      exact hRnd c
  · -- ranked entries typed and drawn from S
    intro c x hx
    by_cases hc : a.accountType = c
    · subst hc
      rw [hRankSelf] at hx
      rcases mem_pqPush.mp hx with rfl | hx
      · exact ⟨rfl, hT, hidmem⟩
      · exact hRty _ x hx
    · rw [hRankOther c hc] at hx
      exact hRty c x hx
  · -- ledger entries well keyed and still ranked
    intro p hp
    rw [hLedgerEq] at hp
    rcases List.mem_append.mp hp with hp | hp
    · obtain ⟨hkey, hmemRank⟩ := hLsh p hp
      refine ⟨hkey, ?_⟩
      by_cases hc : a.accountType = p.2.accountType
      · rw [← hc] at hmemRank ⊢
        rw [hRankSelf]
        exact mem_pqPush.mpr (Or.inr hmemRank)
      · rw [hRankOther _ hc]
        exact hmemRank
    · rw [List.mem_singleton.mp hp]
      refine ⟨rfl, ?_⟩
      rw [hRankSelf]
      exact mem_pqPush.mpr (Or.inl rfl)
  · -- ranked entries present in the ledger
    intro c x hx
    rw [hLedgerEq]
    by_cases hc : a.accountType = c
    · subst hc
      rw [hRankSelf] at hx
      rcases mem_pqPush.mp hx with rfl | hx
      · exact List.mem_append.mpr (Or.inr (List.mem_singleton.mpr rfl))
      · exact List.mem_append.mpr (Or.inl (hRinL _ x hx))
    · rw [hRankOther c hc] at hx
      exact List.mem_append.mpr (Or.inl (hRinL c x hx))
  · -- ledger ids distinct
    rw [hLedgerEq, List.map_append]
    refine nodup_append_singleton hLnd ?_
    intro hmem'
    obtain ⟨p, hp, hpid⟩ := List.mem_map.mp hmem'
    exact hNoLedger p hp hpid

theorem ledgerRankingInvariant_supersede (T : String → String)
    (S : String → List String) (hS : ∀ c, (S c).length ≤ 3)
    {m : AccountManager} {a old : Account} (ft : Int)
    (hT : T a.id = a.accountType) (hidmem : a.id ∈ S a.accountType)
    (hf : pqFindById (rankingOf m a.accountType) a.id = some old)
    (hgt : old.version < a.version)
    (h : LedgerRankingInvariant T S m) :
    LedgerRankingInvariant T S (ingestAccountUpdate m a ft) := by
  obtain ⟨hRnd, hRty, hLsh, hRinL, hLnd⟩ := h
  obtain ⟨hOldMem, hOldId⟩ := pqFindById_some hf
  have hOldInLedger : (AccountKey.mk old.id old.version, old)
      ∈ m.accountIndexer.indexedAccounts :=
    hRinL a.accountType old hOldMem
  have hperm := removeAccountFromPriorityQueue_perm hf
  have hpermIds : ((rankingOf m a.accountType).map (fun x => x.id)).Perm
      (old.id :: (removeAccountFromPriorityQueue
        (rankingOf m a.accountType) a).map (fun x => x.id)) := by
    have := hperm.map (fun x => x.id)
    simpa using this
  have hConsNodup : (old.id :: (removeAccountFromPriorityQueue
      (rankingOf m a.accountType) a).map (fun x => x.id)).Nodup := by
    rw [← hpermIds.nodup_iff]
    exact hRnd a.accountType
  have hRemNodup : ((removeAccountFromPriorityQueue
      (rankingOf m a.accountType) a).map (fun x => x.id)).Nodup :=
    (List.nodup_cons.mp hConsNodup).2
  have hAidNotInRem : a.id ∉ (removeAccountFromPriorityQueue
      (rankingOf m a.accountType) a).map (fun x => x.id) := by
    rw [← hOldId]
    exact (List.nodup_cons.mp hConsNodup).1
  have hRemSub : ∀ x ∈ removeAccountFromPriorityQueue
      (rankingOf m a.accountType) a, x ∈ rankingOf m a.accountType := by
    intro x hx
    exact hperm.mem_iff.mpr (List.mem_cons_of_mem _ hx)
  have hPushNodup : ((pqPush (removeAccountFromPriorityQueue
      (rankingOf m a.accountType) a) a).map (fun x => x.id)).Nodup := by
    rw [((pqPush_perm _ a).map (fun x => x.id)).nodup_iff]
    exact List.nodup_cons.mpr ⟨hAidNotInRem, hRemNodup⟩
  have hPushSub : ∀ x ∈ pqPush (removeAccountFromPriorityQueue
      (rankingOf m a.accountType) a) a, x.id ∈ S a.accountType := by
    intro x hx
    rcases mem_pqPush.mp hx with rfl | hx
    · exact hidmem
    · exact (hRty _ x (hRemSub x hx)).2.2
  have hTrimEq : trimToCapacity (pqPush (removeAccountFromPriorityQueue
      (rankingOf m a.accountType) a) a)
      = pqPush (removeAccountFromPriorityQueue
          (rankingOf m a.accountType) a) a :=
    trim_eq_of_ids_bounded (hS a.accountType) hPushNodup hPushSub
  have hRankSelf : rankingOf (ingestAccountUpdate m a ft) a.accountType
      = pqPush (removeAccountFromPriorityQueue
          (rankingOf m a.accountType) a) a := by
    rw [supersede_ranking_self ft hf hgt,
      insertAccountIntoPriorityQueue_eq, hTrimEq]
  have hRankOther : ∀ c, a.accountType ≠ c →
      rankingOf (ingestAccountUpdate m a ft) c = rankingOf m c :=
    fun c hc => supersede_ranking_other ft hf hgt hc
  have hEraseIds : ((ledgerErase m.accountIndexer.indexedAccounts
      (AccountKey.mk old.id old.version)).map (fun p => p.1.id))
      = ((m.accountIndexer.indexedAccounts.map (fun p => p.1.id)).erase
          old.id) :=
    ledgerErase_map_id hOldInLedger hLnd
  have hEraseNodup : ((ledgerErase m.accountIndexer.indexedAccounts
      (AccountKey.mk old.id old.version)).map (fun p => p.1.id)).Nodup := by
    rw [hEraseIds]
    exact hLnd.erase _
  have hAidNotInErase : a.id ∉ (ledgerErase m.accountIndexer.indexedAccounts
      (AccountKey.mk old.id old.version)).map (fun p => p.1.id) := by
    rw [hEraseIds, ← hOldId]
    intro hm
    exact ((hLnd.mem_erase_iff).mp hm).1 rfl
  have hEraseSub : ∀ q ∈ ledgerErase m.accountIndexer.indexedAccounts
      (AccountKey.mk old.id old.version),
      q ∈ m.accountIndexer.indexedAccounts :=
    fun q hq => (ledgerErase_sublist _ _).subset hq
  have hEraseIdNe : ∀ q ∈ ledgerErase m.accountIndexer.indexedAccounts
      (AccountKey.mk old.id old.version), q.1.id ≠ old.id := by
    intro q hq
    have hqid : q.1.id ∈ (ledgerErase m.accountIndexer.indexedAccounts
        (AccountKey.mk old.id old.version)).map (fun p => p.1.id) :=
      List.mem_map.mpr ⟨q, hq, rfl⟩
    rw [hEraseIds] at hqid
    exact ((hLnd.mem_erase_iff).mp hqid).1
  have hPutAppend : (ingestAccountUpdate m a
      ft).accountIndexer.indexedAccounts
      = ledgerErase m.accountIndexer.indexedAccounts
          (AccountKey.mk old.id old.version)
        ++ [(AccountKey.mk a.id a.version, a)] := by
    rw [supersede_ledger ft hf hgt]
    refine ledgerPut_eq_append a ?_
    intro p hp hk
    refine hAidNotInErase ?_
    exact List.mem_map.mpr ⟨p, hp, by rw [hk]⟩
  refine ⟨?_, ?_, ?_, ?_, ?_⟩
  · -- ranked ids distinct
    intro c
    by_cases hc : a.accountType = c
    · subst hc
      rw [hRankSelf]
      exact hPushNodup
    · rw [hRankOther c hc]
      exact hRnd c
  · -- ranked entries typed and drawn from S
    intro c x hx
    by_cases hc : a.accountType = c
    · subst hc
      rw [hRankSelf] at hx
      rcases mem_pqPush.mp hx with rfl | hx
      · exact ⟨rfl, hT, hidmem⟩
      · exact hRty _ x (hRemSub x hx)
    · rw [hRankOther c hc] at hx
      exact hRty c x hx
  · -- ledger entries well keyed and still ranked
    intro p hp
    rw [hPutAppend] at hp
    rcases List.mem_append.mp hp with hp | hp
    · obtain ⟨hkey, hmemRank⟩ := hLsh p (hEraseSub p hp)
      refine ⟨hkey, ?_⟩
      have hpIdNe : p.2.id ≠ old.id := by
        have := hEraseIdNe p hp
        rw [hkey] at this
        exact this
      by_cases hc : a.accountType = p.2.accountType
      · rw [← hc] at hmemRank ⊢
        rw [hRankSelf]
        have hmem' := hperm.mem_iff.mp hmemRank
        rcases List.mem_cons.mp hmem' with rfl | hmem'
        · exact absurd rfl hpIdNe
        · exact mem_pqPush.mpr (Or.inr hmem')
      · rw [hRankOther _ hc]
        exact hmemRank
    · rw [List.mem_singleton.mp hp]
      refine ⟨rfl, ?_⟩
      rw [hRankSelf]
      exact mem_pqPush.mpr (Or.inl rfl)
  · -- ranked entries present in the ledger
    intro c x hx
    rw [hPutAppend]
    by_cases hc : a.accountType = c
    · subst hc
      rw [hRankSelf] at hx
      rcases mem_pqPush.mp hx with rfl | hx
      · exact List.mem_append.mpr (Or.inr (List.mem_singleton.mpr rfl))
      · refine List.mem_append.mpr (Or.inl ?_)
        refine mem_ledgerErase_of_ne (hRinL _ x (hRemSub x hx)) ?_
        intro hk
        have hxid : x.id = old.id := congrArg AccountKey.id hk
        rw [hOldId] at hxid
        exact hAidNotInRem (hxid ▸ List.mem_map.mpr ⟨x, hx, rfl⟩)
    · rw [hRankOther c hc] at hx
      refine List.mem_append.mpr (Or.inl ?_)
      refine mem_ledgerErase_of_ne (hRinL c x hx) ?_
      intro hk
      have hxid : x.id = old.id := congrArg AccountKey.id hk
      have hTx : T x.id = c := (hRty c x hx).2.1
      rw [hxid, hOldId, hT] at hTx
      exact hc hTx
  · -- ledger ids distinct
    rw [hPutAppend, List.map_append]
    exact nodup_append_singleton hEraseNodup hAidNotInErase

theorem ledgerRankingInvariant_congr (T : String → String)
    (S : String → List String) {m m' : AccountManager}
    (h : m'.accountIndexer = m.accountIndexer)
    (hi : LedgerRankingInvariant T S m) :
    LedgerRankingInvariant T S m' := by
  unfold LedgerRankingInvariant rankingOf at hi ⊢
  rw [h]
  exact hi

theorem ledgerRankingInvariant_step (T : String → String)
    (S : String → List String) (hS : ∀ c, (S c).length ≤ 3)
    (m : AccountManager) (u : Account × Int × Int)
    (hT : T (u.1).id = (u.1).accountType)
    (hidmem : (u.1).id ∈ S (u.1).accountType)
    (h : LedgerRankingInvariant T S m) :
    LedgerRankingInvariant T S (processStep m u) := by
  obtain ⟨a, ft, now⟩ := u
  have hT' : T a.id = a.accountType := hT
  have hidmem' : a.id ∈ S a.accountType := hidmem
  refine ledgerRankingInvariant_congr T S
    (show (processStep m (a, ft, now)).accountIndexer
      = (ingestAccountUpdate m a ft).accountIndexer from rfl) ?_
  cases hf : pqFindById (rankingOf m a.accountType) a.id with
  | none => exact ledgerRankingInvariant_notFound T S hS ft hT' hidmem' hf h
  | some old =>
    by_cases hv : a.version ≤ old.version
    · refine ledgerRankingInvariant_congr T S ?_ h
      rw [ingest_of_stale ft hf hv]
    · exact ledgerRankingInvariant_supersede T S hS ft hT' hidmem' hf
        (not_le.mp hv) h

theorem ledgerRankingInvariant_initial (T : String → String)
    (S : String → List String) :
    LedgerRankingInvariant T S initialManager := by
  refine ⟨?_, ?_, ?_, ?_, ?_⟩ <;>
    simp [rankingOf, initialManager, mapLookup]

theorem ledgerRankingInvariant_run (T : String → String)
    (S : String → List String) (hS : ∀ c, (S c).length ≤ 3)
    (us : List (Account × Int × Int)) :
    ∀ m : AccountManager,
    (∀ u ∈ us, T (u.1).id = (u.1).accountType ∧
      (u.1).id ∈ S (u.1).accountType) →
    LedgerRankingInvariant T S m →
    LedgerRankingInvariant T S (processRun m us) := by
  induction us with
  | nil => intro m _ h; exact h
  | cons u rest ih =>
    intro m hup h
    rw [processRun_cons]
    refine ih _ (fun u' hu' => hup u' (List.mem_cons_of_mem _ hu')) ?_
    exact ledgerRankingInvariant_step T S hS m u
      (hup u (List.mem_cons_self _ _)).1
      (hup u (List.mem_cons_self _ _)).2 h

/-- C2 (amended): for input sequences in which each identifier always
carries one fixed category (the assignment `T`) and each category's
updates draw from at most 3 distinct identifiers (the universe `S`), the
Ledger contains at most one entry per identifier after the whole run —
hence after every update, since the hypotheses are preserved by taking
prefixes.  (Without the at-most-3 restriction the capacity trim can evict
an identifier from the ranking while its ledger entry stays, and a later
update for it is accepted without removing the old key; see the
counterexample.) -/
theorem ledger_one_entry_per_id_bounded_categories (T : String → String)
    (S : String → List String) (us : List (Account × Int × Int))
    (hS : ∀ c, (S c).length ≤ 3)
    (hT : ∀ u ∈ us, T (u.1).id = (u.1).accountType)
    (hidmem : ∀ u ∈ us, (u.1).id ∈ S (u.1).accountType) (i : String) :
    countById
      (processRun initialManager us).accountIndexer.indexedAccounts i
      ≤ 1 := by
  have hinv := ledgerRankingInvariant_run T S hS us initialManager
    (fun u hu => ⟨hT u hu, hidmem u hu⟩)
    (ledgerRankingInvariant_initial T S)
  exact countById_le_one hinv.2.2.2.2

/-- Witness for the amended C2: a three-update run (a1 v1, a1 v2, a2 v1)
in one category with identifier universe of size 3. -/
theorem ledger_one_entry_per_id_bounded_categories_witness :
    countById
      (processRun initialManager
        [(acctA1, 10, 0), (acctA1v2, 11, 0), (acctA2, 12, 0)]
      ).accountIndexer.indexedAccounts "a1" ≤ 1 :=
  ledger_one_entry_per_id_bounded_categories witT witS
    [(acctA1, 10, 0), (acctA1v2, 11, 0), (acctA2, 12, 0)]
    (fun _ => Nat.le.refl) (by decide) (by decide) "a1"
